import Mathlib

/-!
Shallow embedding of the genetic-algorithm scheduler (GASv5.00.py): the genome
codec, relation scoring, crossover and mutation, population truncation, the
tournament accumulation loop, the history ledger and the rolling-average
bookkeeping, together with proofs of the specified properties.

Python floats are modelled as exact rationals; `randint` draws are modelled
as oracle functions `Nat → Int` giving the value of the k-th draw, so every
theorem quantifying over the oracle holds for every possible random stream.
-/

namespace GAS

/-- Python's `round` of the exact fraction `a / b` (with `0 < b`): round half
to even (banker's rounding), as Python 3 `round` behaves. Implemented with
integer euclidean division so that it evaluates by kernel reduction. -/
def pyRoundInt (a b : ℤ) : ℤ :=
  let q0 := a / b
  let r := a % b
  if 2 * r < b then q0
  else if b < 2 * r then q0 + 1
  else if q0 % 2 = 0 then q0 else q0 + 1

/-- Python's `round` on a rational. -/
def pyRound (q : ℚ) : ℤ := pyRoundInt q.num q.den

/-- Python's list slice `l[a:b]` for `0 ≤ a ≤ b` (clamped at the ends, as
Python slicing is). -/
def pySlice (l : List Char) (a b : Nat) : List Char := (l.drop a).take (b - a)

/-- The `while number + padding > 0` loop of `GAS.numberToString`.
`draw k` is the value of the k-th `randint(0, 100)` call; `prob` is the
`probability` local, computed once before the loop starts. -/
def ntsLoop (draw : Nat → Int) (prob : Int) (number padding k : Nat) : List Char :=
  if _h0 : number + padding = 0 then []
  else if _h1 : number = 0 then '0' :: ntsLoop draw prob number (padding - 1) (k + 1)
  else if _h2 : padding = 0 then '1' :: ntsLoop draw prob (number - 1) padding (k + 1)
  else if draw k < prob then '0' :: ntsLoop draw prob number (padding - 1) (k + 1)
  else '1' :: ntsLoop draw prob (number - 1) padding (k + 1)
termination_by number + padding
decreasing_by all_goals omega

/-- `GAS.numberToString(_number, _length)`: encode the value `v ∈ [0, L]` as a
string of `L` symbols containing `v` ones, placed by random draws.
`number = v`, `padding = L - v` and
`probability = int(round(100 * (padding / _length)))`, computed once. -/
def numberToString (draw : Nat → Int) (v L : Nat) : List Char :=
  ntsLoop draw (pyRoundInt (100 * ((L : ℤ) - (v : ℤ))) (L : ℤ)) v (L - v) 0

/-- Modelled from the claim's words (for comparison with `numberToString`,
which is the source translation): at every position the zero-emission
threshold is recomputed from the current counters, proportional to
zeros-remaining over total symbols remaining at that position. -/
def ntsSpecLoop (draw : Nat → Int) (number padding k : Nat) : List Char :=
  if _h0 : number + padding = 0 then []
  else if _h1 : number = 0 then '0' :: ntsSpecLoop draw number (padding - 1) (k + 1)
  else if _h2 : padding = 0 then '1' :: ntsSpecLoop draw (number - 1) padding (k + 1)
  else if draw k < pyRoundInt (100 * (padding : ℤ)) ((number : ℤ) + (padding : ℤ)) then
    '0' :: ntsSpecLoop draw number (padding - 1) (k + 1)
  else '1' :: ntsSpecLoop draw (number - 1) padding (k + 1)
termination_by number + padding
decreasing_by all_goals omega

/-- Modelled from the claim's words: `numberToString` with the threshold
recomputed at every position (see `ntsSpecLoop`). -/
def numberToStringSpecModel (draw : Nat → Int) (v L : Nat) : List Char :=
  ntsSpecLoop draw v (L - v) 0

/-- The resource-id segment length,
`resourceCount - 1 if resourceCount > 1 else 1`, as computed in both
`GAS.calculatePopulationGenome` and `GAS.genomeToValues`. -/
def resolveResourceLen (resourceCount : Nat) : Nat :=
  if 1 < resourceCount then resourceCount - 1 else 1

/-- `GAS.genomeToValues(_genome)`: split the genome into per-operation
segments and decode each value by counting the ones in its sub-range. -/
def genomeToValues (operationMaxTime resourceCount operationCount : Nat)
    (genome : List Char) : List Nat × List Nat :=
  let segment := operationMaxTime + resolveResourceLen resourceCount
  ((List.range operationCount).map (fun i =>
      (pySlice genome (i * segment) (i * segment + operationMaxTime)).count '1'),
   (List.range operationCount).map (fun i =>
      (pySlice genome (i * segment + operationMaxTime) ((i + 1) * segment)).count '1'))

/-- One operation relation, as stored in `self.operationRelations[op2][op1]`:
a `type` tag, optional `min` and `max` offsets and a `weight`. -/
structure Relation where
  type : String
  min : Option Int
  max : Option Int
  weight : Int
deriving DecidableEq

/-- The per-relation body of `GAS.scorePopulation` (the inner `for op1` loop):
given the relation, the already-computed `start1`/`end1`/`start2`/`end2`
locals and the running score, produce the updated score, or `none` for an
invalid relation type (the `return False` branch). -/
def relStep (mode : String) (r : Relation) (start1 end1 start2 end2 score : Int) :
    Option Int :=
  if r.type = "SS" then
    let sc1 :=
      match r.min with
      | some m =>
          if start2 - (start1 + m) < 0 then score + (start2 - (start1 + m)) * r.weight
          else score
      | none => if mode = "asap" then score - start2 else score
    let sc2 :=
      match r.max with
      | some m =>
          if (start1 + m) - start2 < 0 then sc1 + ((start1 + m) - start2) * r.weight
          else sc1
      | none => if mode = "alap" then sc1 + start2 else sc1
    some sc2
  else if r.type = "SE" then
    let sc1 :=
      match r.min with
      | some m =>
          if end2 - (start1 + m) < 0 then score + (end2 - (start1 + m)) * r.weight
          else score
      | none => if mode = "asap" then score - start2 else score
    let sc2 :=
      match r.max with
      | some m =>
          if (start1 + m) - end2 < 0 then sc1 + ((start1 + m) - end2) * r.weight
          else sc1
      | none => if mode = "alap" then sc1 + start2 else sc1
    some sc2
  else if r.type = "ES" then
    let sc1 :=
      match r.min with
      | some m =>
          if start2 - (end1 + m) < 0 then score + (start2 - (end1 + m)) * r.weight
          else score
      | none => if mode = "asap" then score - start2 else score
    let sc2 :=
      match r.max with
      | some m =>
          if (end1 + m) - start2 < 0 then sc1 + ((end1 + m) - start2) * r.weight
          else sc1
      | none => if mode = "alap" then sc1 + start2 else sc1
    some sc2
  else if r.type = "EE" then
    let sc1 :=
      match r.min with
      | some m =>
          if end2 - (end1 + m) < 0 then score + (end2 - (end1 + m)) * r.weight
          else score
      | none => if mode = "asap" then score - start2 else score
    let sc2 :=
      match r.max with
      | some m =>
          if (end1 + m) - end2 < 0 then sc1 + ((end1 + m) - end2) * r.weight
          else sc1
      | none => if mode = "alap" then sc1 + start2 else sc1
    some sc2
  else none

/-- The `mutationSize` parameter: a relative float or an absolute integer. -/
inductive MutSize
  | ofFloat (q : ℚ)
  | ofInt (n : Int)

/-- `number_of_mutations` in `GAS.crossTwoGenomes`: a float mutation size is
`int(round(len(result_genome) * mutationSize))`, an integer one is taken
as-is. -/
def resolveMutCount (ms : MutSize) (len : Nat) : Int :=
  match ms with
  | .ofFloat q => pyRound ((len : ℚ) * q)
  | .ofInt n => n

/-- The `while True` splicing loop of `GAS.crossTwoGenomes`. `stepD k` is the
k-th `randint(crossMinStep, crossMaxStep)` draw and `coinD k` the matching
`randint(0, 99)` coin; `n = len(_genome1)`; `none` models the `ValueError`
Python's `randint` raises on an empty range (`crossMinStep > crossMaxStep`).
The fuel argument only bounds the recursion; `n + 1` steps are enough for
every execution the theorems consider. -/
def crossLoop (minS maxS : Int) (stepD coinD : Nat → Int) (g1 g2 : List Char)
    (n : Nat) : Nat → Nat → List Char → Nat → Option (List Char)
  | 0, _, acc, _ => some acc
  | fuel + 1, index, acc, k =>
    if minS ≤ maxS then
      let step := stepD k
      if step > (n : Int) - ((index : Int) + 1) then
        some (acc ++ (if coinD k < 50 then g1.drop index else g2.drop index))
      else
        crossLoop minS maxS stepD coinD g1 g2 n fuel (index + step.toNat)
          (acc ++ (if coinD k < 50 then (g1.drop index).take step.toNat
                   else (g2.drop index).take step.toNat))
          (k + 1)
    else none

/-- The mutation loop of `GAS.crossTwoGenomes`: `number_of_mutations`
single-position assignments, each setting the bit at `posD i` to a coin-flip
value. `none` models the `ValueError` of `randint(0, -1)` on an empty
genome. -/
def mutateLoop (posD bitD : Nat → Int) : Nat → Nat → List Char → Option (List Char)
  | _, 0, g => some g
  | i, m + 1, g =>
    if 0 ≤ (g.length : Int) - 1 then
      mutateLoop posD bitD (i + 1) m
        (g.set (posD i).toNat (if bitD i < 50 then '0' else '1'))
    else none

/-- `GAS.crossTwoGenomes(_genome1, _genome2)`: splice the two parents in
random steps, then optionally mutate. `trig` is the `randint(1, 10000)`
mutation-trigger draw. -/
def crossTwoGenomes (minS maxS : Int) (mutationProbability : ℚ) (ms : MutSize)
    (stepD coinD posD bitD : Nat → Int) (trig : Int) (g1 g2 : List Char) :
    Option (List Char) :=
  match crossLoop minS maxS stepD coinD g1 g2 g1.length (g1.length + 1) 0 [] 0 with
  | none => none
  | some base =>
    if 0 < mutationProbability then
      if (trig : ℚ) < mutationProbability * 10000 then
        mutateLoop posD bitD 0 (resolveMutCount ms base.length).toNat base
      else some base
    else some base

/-- A value of the `operationDurations` input dictionary: a scalar, a
per-resource list, or anything else (which `GAS.__init__` rejects). -/
inductive DurParam
  | ofInt (d : Int)
  | ofList (ds : List Int)
  | invalid

/-- A `crossMinStep` / `crossMaxStep` input: a relative float or an absolute
integer count. -/
inductive PyNum
  | ofFloat (q : ℚ)
  | ofInt (n : Int)

/-- The asap/alap mode resolution `GAS.__init__` applies once to every
relation. -/
def resolveMode (mode : String) (r : Relation) : Relation :=
  if mode = "normal" then
    if r.min = none ∧ r.max = none then { r with min := some 0 } else r
  else if mode = "asap" then
    if r.min ≠ none then { r with max := r.min } else r
  else if mode = "alap" then
    if r.max ≠ none then { r with min := r.max } else r
  else r

/-- The worst-case duration of one operation (`max` over resources for a
per-resource list); `none` models the `TypeError`/`ValueError` paths. -/
def durWorstCase : DurParam → Option Int
  | .ofInt d => some d
  | .ofList ds => ds.max?
  | .invalid => none

/-- `self.operationMaxTime`: sum of all worst-case durations plus, for each
(already mode-resolved) relation, `max(abs(min or 0), abs(max or 0))`. -/
def operationMaxTime (durs : List DurParam) (rels : List Relation) : Option Int :=
  match durs.mapM durWorstCase with
  | none => none
  | some ws =>
    some (ws.sum + (rels.map (fun r =>
      max (r.min.getD 0).natAbs (r.max.getD 0).natAbs : Relation → Nat)).sum)

/-- Resolution of `crossMinStep` / `crossMaxStep` in `GAS.__init__`: a float
is scaled by `(operationMaxTime + resourceCount - 1) * operationCount` and
rounded, an integer is taken as-is. -/
def resolveCrossStep (opMaxTime : Int) (resourceCount operationCount : Nat)
    (p : PyNum) : Int :=
  match p with
  | .ofFloat q =>
      pyRound (((opMaxTime : ℚ) + (resourceCount : ℚ) - 1) * (operationCount : ℚ) * q)
  | .ofInt n => n

/-- The configuration `GAS.__init__` derives and stores. -/
structure InitResult where
  operationCount : Nat
  operationMaxTime : Int
  crossMinStep : Int
  crossMaxStep : Int
deriving DecidableEq

/-- The construction-time computation of `GAS.__init__` that concerns the
crossover bounds: validate the durations, resolve the mode, derive
`operationMaxTime` and resolve both cross steps. `none` models the only
abort path (an invalid operation-duration value); no other validation is
performed. -/
def gasInit (durs : List DurParam) (rels : List Relation) (resourceCount : Nat)
    (mode : String) (pMin pMax : PyNum) : Option InitResult :=
  let resolved := rels.map (resolveMode mode)
  match operationMaxTime durs resolved with
  | none => none
  | some mt =>
    some { operationCount := durs.length
           operationMaxTime := mt
           crossMinStep := resolveCrossStep mt resourceCount durs.length pMin
           crossMaxStep := resolveCrossStep mt resourceCount durs.length pMax }

/-- One member of the population: start times, resource ids, score, genome. -/
structure Member where
  start_times : List Int
  resources : List Nat
  score : Int
  genome : List Char
deriving DecidableEq

/-- `self.population.sort(key=lambda x: x["score"], reverse=True)`: stable
sort by descending score. -/
def sortDescByScore (pop : List Member) : List Member :=
  pop.mergeSort (fun a b => decide (b.score ≤ a.score))

/-- `for i in range(survivors, populationSize): del self.population[-1]`:
delete the last element `cnt` times. -/
def delLastN (l : List Member) : Nat → List Member
  | 0 => l
  | c + 1 => delLastN l.dropLast c

/-- The truncation phase at the top of `GAS.breedPopulation`: sort the
population by descending score, compute
`survivors = int(round(survivalRate * populationSize))` and discard from the
worst end down to that many. -/
def truncatePhase (survivalRate : ℚ) (populationSize : Nat) (pop : List Member) :
    List Member :=
  let sorted := sortDescByScore pop
  let survivors := (pyRound (survivalRate * (populationSize : ℚ))).toNat
  delLastN sorted (populationSize - survivors)

/-- The inner `for i in range(tournamentSample)` loop of `GAS.tournament`:
append best individuals one by one, stopping (and clearing `keepbreeding`)
as soon as the Tournament Population reaches `cap` members. `ind i` stands
for `getIndividualAsACopy(self.population, i)`. Returns the final pool, the
`keepbreeding` flag, and the list of intermediate pool states after each
append. -/
def innerSample (ind : Nat → Member) (cap : Nat) :
    Nat → Nat → List Member → List Member × Bool × List (List Member)
  | _, 0, tp => (tp, true, [])
  | i, r + 1, tp =>
    let tp' := tp ++ [ind i]
    if tp'.length = cap then (tp', false, [tp'])
    else
      let rest := innerSample ind cap (i + 1) r tp'
      (rest.1, rest.2.1, tp' :: rest.2.2)

/-- The `while keepbreeding` accumulation phase of `GAS.tournament`: each run
of the solver contributes up to `sample` elites (`ind run i` is the i-th best
individual of run `run`). `fuel` bounds the number of runs; the returned
trace lists every intermediate Tournament Population state. The second phase
of `tournament()` only copies out of the pool and never modifies it. -/
def tournFill (ind : Nat → Nat → Member) (cap sample : Nat) :
    Nat → Nat → List Member → List Member × List (List Member)
  | _, 0, tp => (tp, [])
  | run, fuel + 1, tp =>
    let step := innerSample (ind run) cap 0 sample tp
    if step.2.1 then
      let rest := tournFill ind cap sample (run + 1) fuel step.1
      (rest.1, step.2.2 ++ rest.2)
    else (step.1, step.2.2)

/-- A decoded solution: the `(start_times, resources)` pair stored in the
history ledger. -/
abbrev Sol := List Int × List Nat

/-- The `for i in range(historyRetryCount)` duplicate-avoidance loop, shared
by `GAS.addRandomToPopulation` and `GAS.breedPopulation`: `cand j` is the
j-th candidate (`cand 0` generated before the loop, `cand (j+1)` regenerated
by a fresh parent selection, crossover and mutation after the j-th collision).
Each iteration checks the current candidate against the ledger: if absent it
is recorded and accepted; after `r` failed checks the current (never checked)
candidate is accepted and nothing is recorded. Returns the accepted candidate
and the updated ledger. -/
def historyRetryLoop (cand : Nat → Sol) (h : List Sol) : Nat → Nat → Sol × List Sol
  | j, 0 => (cand j, h)
  | j, r + 1 =>
    if cand j ∈ h then historyRetryLoop cand h (j + 1) r
    else (cand j, h ++ [cand j])

/-- The duplicate-avoidance retry construct with `historyRetryCount = k`. -/
def historyRetry (cand : Nat → Sol) (h : List Sol) (k : Nat) : Sol × List Sol :=
  historyRetryLoop cand h 0 k

/-- One history-guarded insertion event: a retry budget and its candidate
stream. Every individual drawn in `addRandomToPopulation` and every offspring
bred in `breedPopulation` with `historyKeep = true` performs exactly one such
event on the ledger. -/
structure HistEvent where
  k : Nat
  cand : Nat → Sol

/-- The history ledger after a sequence of insertion events, starting from
the empty ledger of a fresh instance. -/
def runHistory (events : List HistEvent) : List Sol :=
  events.foldl (fun h e => (historyRetry e.cand h e.k).2) []

/-- The average-score bookkeeping block of `GAS.breedPopulation`: append
`int(sum(scores) / populationSize)` to the sample window; once the window
exceeds `averageScoreSampleSize`, evict the oldest entry and publish
`sum(window) / averageScoreSampleSize` as the rolling average. -/
def avgUpdate (averageScoreSampleSize populationSize : Nat) (scores : List Int)
    (sample : List Int) (avg : Option ℚ) : List Int × Option ℚ :=
  if 0 < averageScoreSampleSize then
    let a := Int.tdiv scores.sum (populationSize : Int)
    let sample' := sample ++ [a]
    if averageScoreSampleSize < sample'.length then
      let sample'' := sample'.drop 1
      (sample'', some ((sample''.sum : ℚ) / (averageScoreSampleSize : ℚ)))
    else (sample', avg)
  else (sample, avg)

/-- The rolling-average state after a sequence of generations, each given by
its list of population scores, starting from the fresh state
(`averageScoreSample = []`, `averageScore = None`). -/
def avgRun (averageScoreSampleSize populationSize : Nat) (gens : List (List Int)) :
    List Int × Option ℚ :=
  gens.foldl (fun st g => avgUpdate averageScoreSampleSize populationSize g st.1 st.2)
    ([], none)

end GAS

namespace GAS

theorem ntsLoop_length (draw : Nat → Int) (prob : Int) (number padding k : Nat) :
    (ntsLoop draw prob number padding k).length = number + padding := by
  induction number, padding, k using ntsLoop.induct draw prob <;>
    (rw [ntsLoop]; split_ifs <;> simp_all <;> omega)

theorem ntsLoop_count_one (draw : Nat → Int) (prob : Int) (number padding k : Nat) :
    (ntsLoop draw prob number padding k).count '1' = number := by
  induction number, padding, k using ntsLoop.induct draw prob <;>
    (rw [ntsLoop]; split_ifs <;> simp_all [List.count_cons] <;> omega)

theorem ntsLoop_count_zero (draw : Nat → Int) (prob : Int) (number padding k : Nat) :
    (ntsLoop draw prob number padding k).count '0' = padding := by
  induction number, padding, k using ntsLoop.induct draw prob <;>
    (rw [ntsLoop]; split_ifs <;> simp_all [List.count_cons] <;> omega)

theorem take_append_len (a b : List Char) (n : Nat) (h : a.length = n) :
    (a ++ b).take n = a := by
  subst h; exact List.take_left a b

theorem drop_append_len (a b : List Char) (n : Nat) (h : a.length = n) :
    (a ++ b).drop n = b := by
  subst h; exact List.drop_left a b

theorem take_of_length_eq (a : List Char) (n : Nat) (h : a.length = n) :
    a.take n = a := by
  subst h; exact List.take_length a

/-- C1 (codec round trip): for every segment length `L ≥ 1` and value
`v ≤ L`, the encoder returns a string of exactly `L` symbols with exactly `v`
ones and `L - v` zeros, for every possible stream of random draws; hence
decoding by counting the ones in the designated sub-range, as
`genomeToValues` does on a one-operation genome, returns exactly `v` (and the
resource value `u`). -/
theorem codec_round_trip (draw draw2 : Nat → Int) (v L u resourceCount : Nat)
    (_hL : 1 ≤ L) (hv : v ≤ L) (hu : u ≤ resolveResourceLen resourceCount) :
    (numberToString draw v L).length = L ∧
    (numberToString draw v L).count '1' = v ∧
    (numberToString draw v L).count '0' = L - v ∧
    genomeToValues L resourceCount 1
        (numberToString draw v L ++
          numberToString draw2 u (resolveResourceLen resourceCount)) = ([v], [u]) := by
  have hl1 : (numberToString draw v L).length = L := by
    rw [numberToString, ntsLoop_length]; omega
  have hl2 : (numberToString draw2 u (resolveResourceLen resourceCount)).length
      = resolveResourceLen resourceCount := by
    rw [numberToString, ntsLoop_length]; omega
  refine ⟨hl1, ?_, ?_, ?_⟩
  · rw [numberToString, ntsLoop_count_one]
  · rw [numberToString, ntsLoop_count_zero]
  · have hr : List.range 1 = [0] := rfl
    simp only [genomeToValues, pySlice, hr, List.map_cons, List.map_nil,
      Nat.zero_mul, Nat.zero_add, Nat.one_mul, List.drop_zero, Nat.sub_zero]
    rw [take_append_len _ _ _ hl1, drop_append_len _ _ _ hl1]
    rw [show L + resolveResourceLen resourceCount - L = resolveResourceLen resourceCount
      from by omega]
    rw [take_of_length_eq _ _ hl2]
    rw [numberToString, numberToString, ntsLoop_count_one, ntsLoop_count_one]

theorem codec_round_trip_witness :
    1 ≤ 2 ∧
    ((numberToString (fun _ => 0) 1 2).length = 2 ∧
     (numberToString (fun _ => 0) 1 2).count '1' = 1 ∧
     (numberToString (fun _ => 0) 1 2).count '0' = 2 - 1 ∧
     genomeToValues 2 2 1
        (numberToString (fun _ => 0) 1 2 ++
          numberToString (fun _ => 7) 1 (resolveResourceLen 2)) = ([1], [1])) :=
  ⟨by decide, codec_round_trip (fun _ => 0) (fun _ => 7) 1 2 1 2 (by decide) (by decide)
    (by decide)⟩

end GAS

namespace GAS

/-- C8 counterexample: the claim's placement rule (threshold recomputed from
the current counters at every position, `numberToStringSpecModel`) disagrees
with the source encoder (`numberToString`, threshold computed once) already
at `v = 1`, `L = 4` with every draw equal to 70: the source emits `0001`
while the recomputed-threshold rule emits `0100`. -/
theorem encoder_threshold_counterexample :
    numberToString (fun _ => 70) 1 4 ≠ numberToStringSpecModel (fun _ => 70) 1 4 := by
  have h1 : numberToString (fun _ => 70) 1 4 = ['0', '0', '0', '1'] := by
    simp [numberToString, ntsLoop, pyRoundInt]
  have h2 : numberToStringSpecModel (fun _ => 70) 1 4 = ['0', '1', '0', '0'] := by
    simp [numberToStringSpecModel, ntsSpecLoop, pyRoundInt]
  rw [h1, h2]; decide

theorem ntsLoop_emit (draw : Nat → Int) (prob : Int) :
    ∀ (i number padding k : Nat), i < number + padding →
      (ntsLoop draw prob number padding k)[i]? =
        some (if number - ((ntsLoop draw prob number padding k).take i).count '1' = 0
              then '0'
              else if padding - ((ntsLoop draw prob number padding k).take i).count '0' = 0
              then '1'
              else if draw (k + i) < prob then '0' else '1') := by
  intro i
  induction i with
  | zero =>
    intro number padding k hi
    simp only [List.take_zero, List.count_nil, Nat.sub_zero, Nat.add_zero]
    rw [ntsLoop]
    split_ifs <;> simp_all
  | succ i ih =>
    intro number padding k hi
    by_cases h0 : number + padding = 0
    · omega
    by_cases h1 : number = 0
    · subst h1
      rw [ntsLoop, dif_neg h0, dif_pos rfl]
      simp only [List.getElem?_cons_succ, List.take_succ_cons, List.count_cons]
      rw [ih 0 (padding - 1) (k + 1) (by omega)]
      simp
    by_cases h2 : padding = 0
    · subst h2
      rw [ntsLoop, dif_neg h0, dif_neg h1, dif_pos rfl]
      simp only [List.getElem?_cons_succ, List.take_succ_cons, List.count_cons_self,
        List.count_cons_of_ne (show ('0' : Char) ≠ '1' from by decide)]
      rw [ih (number - 1) 0 (k + 1) (by omega)]
      clear ih
      congr 1
      split_ifs <;> first | rfl | omega
    by_cases h3 : draw k < prob
    · rw [ntsLoop, dif_neg h0, dif_neg h1, dif_neg h2, if_pos h3]
      simp only [List.getElem?_cons_succ, List.take_succ_cons, List.count_cons_self,
        List.count_cons_of_ne (show ('1' : Char) ≠ '0' from by decide)]
      rw [ih number (padding - 1) (k + 1) (by omega)]
      rw [show k + 1 + i = k + (i + 1) from by omega]
      clear ih
      congr 1
      split_ifs <;> first | rfl | omega
    · rw [ntsLoop, dif_neg h0, dif_neg h1, dif_neg h2, if_neg h3]
      simp only [List.getElem?_cons_succ, List.take_succ_cons, List.count_cons_self,
        List.count_cons_of_ne (show ('0' : Char) ≠ '1' from by decide)]
      rw [ih (number - 1) padding (k + 1) (by omega)]
      rw [show k + 1 + i = k + (i + 1) from by omega]
      clear ih
      congr 1
      split_ifs <;> first | rfl | omega

/-- C8 amended: the encoder iterates position by position maintaining
ones-remaining and zeros-remaining counters; at position `i` it emits zero if
ones-remaining is 0, one if zeros-remaining is 0, and otherwise emits zero
exactly when the i-th draw is below the threshold
`round(100 * (L - v) / L)` — computed once from the initial counters before
the loop and kept fixed for the whole encoding, not recomputed per
position. -/
theorem encoder_placement_amended (draw : Nat → Int) (v L i : Nat)
    (hv : v ≤ L) (hi : i < L) :
    (numberToString draw v L)[i]? =
      some (if v - ((numberToString draw v L).take i).count '1' = 0 then '0'
            else if (L - v) - ((numberToString draw v L).take i).count '0' = 0 then '1'
            else if draw i < pyRoundInt (100 * ((L : ℤ) - (v : ℤ))) (L : ℤ) then '0'
            else '1') := by
  have h := ntsLoop_emit draw (pyRoundInt (100 * ((L : ℤ) - (v : ℤ))) (L : ℤ))
    i v (L - v) 0 (by omega)
  simpa [numberToString] using h

theorem encoder_placement_amended_witness :
    1 ≤ 4 ∧
    ((numberToString (fun _ => 70) 1 4)[1]? =
      some (if 1 - ((numberToString (fun _ => 70) 1 4).take 1).count '1' = 0 then '0'
            else if (4 - 1) - ((numberToString (fun _ => 70) 1 4).take 1).count '0' = 0
            then '1'
            else if (fun _ => (70 : Int)) 1 < pyRoundInt (100 * ((4 : ℤ) - (1 : ℤ))) (4 : ℤ)
            then '0'
            else '1')) :=
  ⟨by decide, encoder_placement_amended (fun _ => 70) 1 4 1 (by decide) (by decide)⟩

end GAS

namespace GAS

/-- C2 (relation compliance scoring): for every relation whose type is one of
SS, SE, ES, EE, the per-relation update of `scorePopulation` — with
`end(op) = start(op) + duration(op, resource(op))` supplied as `s + d` —
adds to the running score exactly the claimed lower-bound contribution
(`gap * weight` when `min` is set and the gap is negative; `-start(opTo)`
when `min` is absent in asap mode) plus the claimed upper-bound contribution
(`gap * weight` when `max` is set and that gap is negative; `+start(opTo)`
when `max` is absent in alap mode), where the reference pairs are selected
by the type as the claim's table states. -/
theorem relation_scoring (mode : String) (r : Relation) (s1 d1 s2 d2 score : Int)
    (ht : r.type = "SS" ∨ r.type = "SE" ∨ r.type = "ES" ∨ r.type = "EE") :
    relStep mode r s1 (s1 + d1) s2 (s2 + d2) score =
      some (score +
        (match r.min with
         | some m =>
             let refTo := if r.type = "SS" ∨ r.type = "ES" then s2 else s2 + d2
             let refFrom := if r.type = "SS" ∨ r.type = "SE" then s1 else s1 + d1
             if refTo - (refFrom + m) < 0 then (refTo - (refFrom + m)) * r.weight else 0
         | none => if mode = "asap" then -s2 else 0) +
        (match r.max with
         | some m =>
             let refTo := if r.type = "SS" ∨ r.type = "ES" then s2 else s2 + d2
             let refFrom := if r.type = "SS" ∨ r.type = "SE" then s1 else s1 + d1
             if (refFrom + m) - refTo < 0 then ((refFrom + m) - refTo) * r.weight else 0
         | none => if mode = "alap" then s2 else 0)) := by
  obtain ⟨ty, rmin, rmax, w⟩ := r
  rcases ht with h | h | h | h <;> (simp only at h; subst h) <;>
    (cases rmin <;> cases rmax <;> simp [relStep] <;> split_ifs <;> ring_nf)

theorem relation_scoring_witness :
    (({ type := "ES", min := some 0, max := some 0, weight := 1 } : Relation).type = "SS"
      ∨ ({ type := "ES", min := some 0, max := some 0, weight := 1 } : Relation).type = "SE"
      ∨ ({ type := "ES", min := some 0, max := some 0, weight := 1 } : Relation).type = "ES"
      ∨ ({ type := "ES", min := some 0, max := some 0, weight := 1 } : Relation).type = "EE")
    ∧ relStep "normal" { type := "ES", min := some 0, max := some 0, weight := 1 }
        0 (0 + 4) 2 (2 + 4) 0 = some (-2) := by
  refine ⟨by decide, ?_⟩
  rw [relation_scoring "normal" { type := "ES", min := some 0, max := some 0, weight := 1 }
    0 4 2 4 0 (by decide)]
  decide

end GAS

namespace GAS

theorem crossLoop_length (minS maxS : Int) (stepD coinD : Nat → Int) (g1 g2 : List Char)
    (n : Nat) (hg1 : g1.length = n) (hg2 : g2.length = n)
    (hmin : 1 ≤ minS) (hmax : minS ≤ maxS)
    (hstep : ∀ k, minS ≤ stepD k ∧ stepD k ≤ maxS) :
    ∀ (fuel index : Nat) (acc : List Char) (k : Nat),
      index < n → acc.length = index → n - index ≤ fuel →
      ∃ res, crossLoop minS maxS stepD coinD g1 g2 n fuel index acc k = some res ∧
        res.length = n := by
  intro fuel
  induction fuel with
  | zero => intro index acc k h1 h2 h3; omega
  | succ fuel ih =>
    intro index acc k h1 h2 h3
    simp only [crossLoop, if_pos hmax]
    by_cases hbr : stepD k > (n : Int) - ((index : Int) + 1)
    · rw [if_pos hbr]
      refine ⟨_, rfl, ?_⟩
      split_ifs <;> simp [List.length_append, List.length_drop, hg1, hg2] <;> omega
    · rw [if_neg hbr]
      have hs := hstep k
      have hlt : index + (stepD k).toNat < n := by omega
      have hpos : 1 ≤ (stepD k).toNat := by omega
      refine ih (index + (stepD k).toNat) _ (k + 1) hlt ?_ (by omega)
      split_ifs <;>
        simp [List.length_append, List.length_take, List.length_drop, hg1, hg2, h2] <;>
        omega

theorem mutateLoop_length (posD bitD : Nat → Int) :
    ∀ (m i : Nat) (g : List Char), 1 ≤ g.length →
      ∃ res, mutateLoop posD bitD i m g = some res ∧ res.length = g.length := by
  intro m
  induction m with
  | zero => intro i g _; exact ⟨g, rfl, rfl⟩
  | succ m ih =>
    intro i g hg
    simp only [mutateLoop]
    rw [if_pos (by omega : (0 : Int) ≤ (g.length : Int) - 1)]
    obtain ⟨res, h1, h2⟩ := ih (i + 1)
      (g.set (posD i).toNat (if bitD i < 50 then '0' else '1'))
      (by rw [List.length_set]; omega)
    exact ⟨res, h1, by rw [h2, List.length_set]⟩

/-- C3 (crossover length invariant): for any two parent genomes of equal
length `n ≥ 1` and resolved bounds with `1 ≤ crossMinStep ≤ crossMaxStep`
(draws in range), `crossTwoGenomes` succeeds and returns a child genome of
length exactly `n`, whether or not the optional mutation step is triggered —
mutation only assigns bits at existing positions and never changes the
length. -/
theorem cross_length_invariant (minS maxS : Int) (mutationProbability : ℚ)
    (ms : MutSize) (stepD coinD posD bitD : Nat → Int) (trig : Int)
    (g1 g2 : List Char) (n : Nat)
    (hg1 : g1.length = n) (hg2 : g2.length = n) (hn : 1 ≤ n)
    (hmin : 1 ≤ minS) (hmax : minS ≤ maxS)
    (hstep : ∀ k, minS ≤ stepD k ∧ stepD k ≤ maxS) :
    ∃ child,
      crossTwoGenomes minS maxS mutationProbability ms stepD coinD posD bitD trig g1 g2
        = some child ∧ child.length = n := by
  subst hg1
  obtain ⟨base, hb, hbl⟩ :=
    crossLoop_length minS maxS stepD coinD g1 g2 g1.length rfl hg2 hmin hmax hstep
      (g1.length + 1) 0 [] 0 (by omega) rfl (by omega)
  simp only [crossTwoGenomes, hb]
  by_cases hp : 0 < mutationProbability
  · rw [if_pos hp]
    by_cases htr : (trig : ℚ) < mutationProbability * 10000
    · rw [if_pos htr]
      obtain ⟨res, h1, h2⟩ := mutateLoop_length posD bitD
        (resolveMutCount ms base.length).toNat 0 base (by omega)
      exact ⟨res, h1, by omega⟩
    · rw [if_neg htr]; exact ⟨base, rfl, hbl⟩
  · rw [if_neg hp]; exact ⟨base, rfl, hbl⟩

theorem cross_length_invariant_witness :
    ∃ child,
      crossTwoGenomes 1 1 0 (MutSize.ofInt 0) (fun _ => 1) (fun _ => 0) (fun _ => 0)
        (fun _ => 0) 1 ['0'] ['1'] = some child ∧ child.length = 1 :=
  cross_length_invariant 1 1 0 (MutSize.ofInt 0) (fun _ => 1) (fun _ => 0) (fun _ => 0)
    (fun _ => 0) 1 ['0'] ['1'] 1 rfl rfl (by decide) (by decide) (by decide)
    (fun _ => ⟨le_refl 1, le_refl 1⟩)

end GAS

namespace GAS

/-- C7 counterexample: a configuration whose resolved `crossMinStep` (5) is
strictly greater than its resolved `crossMaxStep` (2) is accepted by the
construction-time computation — `gasInit` returns a configuration instead of
rejecting — contradicting the claim that such a configuration is rejected as
a fatal error at construction time. -/
theorem cross_steps_construction_counterexample :
    gasInit [DurParam.ofInt 4] [] 2 "normal" (PyNum.ofInt 5) (PyNum.ofInt 2) =
      some { operationCount := 1, operationMaxTime := 4,
             crossMinStep := 5, crossMaxStep := 2 } := by
  decide

/-- C7 amended: construction does not validate the crossover bounds: a
configuration with resolved `crossMinStep > crossMaxStep` is accepted
silently by `gasInit`, and the error surfaces only later during breeding —
every call of `crossTwoGenomes` under such a configuration fails (Python's
`randint` raises on the empty range), for all genomes and all draws. -/
theorem cross_steps_failure_after_init (durs : List DurParam) (rels : List Relation)
    (resourceCount : Nat) (mode : String) (pMin pMax : PyNum) (cfg : InitResult)
    (mutationProbability : ℚ) (ms : MutSize) (stepD coinD posD bitD : Nat → Int)
    (trig : Int) (g1 g2 : List Char)
    (_hinit : gasInit durs rels resourceCount mode pMin pMax = some cfg)
    (hbad : cfg.crossMaxStep < cfg.crossMinStep) :
    crossTwoGenomes cfg.crossMinStep cfg.crossMaxStep mutationProbability ms stepD coinD
      posD bitD trig g1 g2 = none := by
  have h : ¬ cfg.crossMinStep ≤ cfg.crossMaxStep := by omega
  simp only [crossTwoGenomes, crossLoop, if_neg h]

theorem cross_steps_failure_after_init_witness :
    crossTwoGenomes 5 2 0 (MutSize.ofInt 0) (fun _ => 0) (fun _ => 0) (fun _ => 0)
      (fun _ => 0) 1 ['0'] ['1'] = none :=
  cross_steps_failure_after_init [DurParam.ofInt 4] [] 2 "normal" (PyNum.ofInt 5)
    (PyNum.ofInt 2)
    { operationCount := 1, operationMaxTime := 4, crossMinStep := 5, crossMaxStep := 2 }
    0 (MutSize.ofInt 0) (fun _ => 0) (fun _ => 0) (fun _ => 0) (fun _ => 0) 1
    ['0'] ['1'] (by decide) (by decide)

theorem floor_le_pyRound (q : ℚ) : ⌊q⌋ ≤ pyRound q := by
  simp only [pyRound, pyRoundInt, ← Rat.floor_def]
  split_ifs <;> omega

theorem pyRound_le_floor_add_one (q : ℚ) : pyRound q ≤ ⌊q⌋ + 1 := by
  simp only [pyRound, pyRoundInt, ← Rat.floor_def]
  split_ifs <;> omega

theorem pyRound_nonneg {q : ℚ} (h : 0 ≤ q) : 0 ≤ pyRound q := by
  have h0 : (0 : ℤ) ≤ ⌊q⌋ := Int.floor_nonneg.mpr h
  have h1 := floor_le_pyRound q
  omega

theorem pyRound_natCast (m : Nat) : pyRound ((m : ℚ)) = (m : ℤ) := by
  simp only [pyRound, pyRoundInt, Rat.num_natCast, Rat.den_natCast]
  norm_num

theorem pyRound_le_nat {q : ℚ} {m : Nat} (h : q ≤ (m : ℚ)) : pyRound q ≤ (m : ℤ) := by
  have hfl : ⌊q⌋ ≤ (m : ℤ) := by
    have h2 := Int.floor_le_floor h
    rwa [Int.floor_natCast] at h2
  by_cases heq : ⌊q⌋ = (m : ℤ)
  · have hge : (m : ℚ) ≤ q := by
      have h3 := Int.floor_le q
      rw [heq] at h3
      exact_mod_cast h3
    have hqm : q = (m : ℚ) := le_antisymm h hge
    rw [hqm, pyRound_natCast]
  · have h4 := pyRound_le_floor_add_one q
    omega

theorem delLastN_eq_take (l : List Member) : ∀ c, delLastN l c = l.take (l.length - c) := by
  intro c
  induction c generalizing l with
  | zero => simp [delLastN]
  | succ c ih =>
    rw [delLastN, ih, List.length_dropLast, List.dropLast_eq_take, List.take_take]
    congr 1
    omega

/-- C4 (truncation determinism): for a population holding exactly
`populationSize` individuals, the first phase of `breedPopulation` sorts the
population in descending order of score and discards individuals from the
worst end, so that exactly `round(survivalRate * populationSize)` survivors
(the top of the sorted order) remain before any random infusion and
breeding. -/
theorem truncation_determinism (survivalRate : ℚ) (populationSize : Nat)
    (pop : List Member) (hlen : pop.length = populationSize)
    (h0 : 0 ≤ survivalRate) (h1 : survivalRate ≤ 1) :
    truncatePhase survivalRate populationSize pop =
      (sortDescByScore pop).take (pyRound (survivalRate * (populationSize : ℚ))).toNat ∧
    (truncatePhase survivalRate populationSize pop).length =
      (pyRound (survivalRate * (populationSize : ℚ))).toNat := by
  have hq0 : 0 ≤ survivalRate * (populationSize : ℚ) := by positivity
  have hqm : survivalRate * (populationSize : ℚ) ≤ (populationSize : ℚ) := by
    have := mul_le_mul_of_nonneg_right h1 (by positivity : (0 : ℚ) ≤ (populationSize : ℚ))
    simpa using this
  have hs0 : 0 ≤ pyRound (survivalRate * (populationSize : ℚ)) := pyRound_nonneg hq0
  have hsm : pyRound (survivalRate * (populationSize : ℚ)) ≤ (populationSize : ℤ) :=
    pyRound_le_nat hqm
  have hsurv : (pyRound (survivalRate * (populationSize : ℚ))).toNat ≤ populationSize := by
    omega
  have hlen2 : (sortDescByScore pop).length = populationSize := by
    rw [sortDescByScore, List.length_mergeSort, hlen]
  have hmain : truncatePhase survivalRate populationSize pop =
      (sortDescByScore pop).take (pyRound (survivalRate * (populationSize : ℚ))).toNat := by
    rw [truncatePhase, delLastN_eq_take, hlen2]
    congr 1
    omega
  refine ⟨hmain, ?_⟩
  rw [hmain, List.length_take, hlen2]
  omega

theorem truncation_determinism_witness :
    truncatePhase 0 2
        [{ start_times := [], resources := [], score := 0, genome := [] },
         { start_times := [], resources := [], score := 3, genome := [] }] =
      (sortDescByScore
        [{ start_times := [], resources := [], score := 0, genome := [] },
         { start_times := [], resources := [], score := 3, genome := [] }]).take
        (pyRound (0 * ((2 : Nat) : ℚ))).toNat ∧
    (truncatePhase 0 2
        [{ start_times := [], resources := [], score := 0, genome := [] },
         { start_times := [], resources := [], score := 3, genome := [] }]).length =
      (pyRound (0 * ((2 : Nat) : ℚ))).toNat :=
  truncation_determinism 0 2
    [{ start_times := [], resources := [], score := 0, genome := [] },
     { start_times := [], resources := [], score := 3, genome := [] }]
    rfl (le_refl 0) zero_le_one

end GAS

namespace GAS

theorem chain'_cons_append {α : Type} (R : α → α → Prop) (a : α) (A B : List α) (mid : α)
    (h1 : List.Chain' R (a :: A)) (h2 : List.Chain' R (mid :: B))
    (hmid : A.getLastD a = mid) :
    List.Chain' R (a :: (A ++ B)) := by
  induction A generalizing a with
  | nil =>
    simp only [List.getLastD_nil] at hmid
    subst hmid
    simpa using h2
  | cons x A ih =>
    obtain ⟨hax, h1'⟩ := List.chain'_cons.mp h1
    rw [List.getLastD_cons] at hmid
    rw [List.cons_append, List.chain'_cons]
    exact ⟨hax, ih x h1' hmid⟩

theorem innerSample_invariant (ind : Nat → Member) (cap : Nat) :
    ∀ (r i : Nat) (tp : List Member), tp.length < cap →
      (∀ s ∈ (innerSample ind cap i r tp).2.2, s.length ≤ cap) ∧
      List.Chain' (fun a b => ∃ x, b = a ++ [x])
        (tp :: (innerSample ind cap i r tp).2.2) ∧
      (innerSample ind cap i r tp).2.2.getLastD tp = (innerSample ind cap i r tp).1 ∧
      ((innerSample ind cap i r tp).2.1 = true →
        (innerSample ind cap i r tp).1.length < cap) := by
  intro r
  induction r with
  | zero =>
    intro i tp hlt
    refine ⟨by simp [innerSample], by simp [innerSample], by simp [innerSample], ?_⟩
    intro _
    simpa [innerSample] using hlt
  | succ r ih =>
    intro i tp hlt
    by_cases hc : (tp ++ [ind i]).length = cap
    · simp only [innerSample, if_pos hc]
      refine ⟨?_, ?_, by simp, by simp⟩
      · intro s hs
        simp only [List.mem_singleton] at hs
        subst hs
        omega
      · exact List.chain'_cons.mpr ⟨⟨ind i, rfl⟩, List.chain'_singleton _⟩
    · have hlt' : (tp ++ [ind i]).length < cap := by
        rw [List.length_append] at hc ⊢
        simp only [List.length_singleton] at hc ⊢
        omega
      obtain ⟨ha, hb, hc2, hd⟩ := ih (i + 1) (tp ++ [ind i]) hlt'
      simp only [innerSample, if_neg hc]
      refine ⟨?_, ?_, ?_, hd⟩
      · intro s hs
        rcases List.mem_cons.mp hs with rfl | hs
        · omega
        · exact ha s hs
      · exact List.chain'_cons.mpr ⟨⟨ind i, rfl⟩, hb⟩
      · rw [List.getLastD_cons]
        exact hc2

theorem tournFill_invariant (ind : Nat → Nat → Member) (cap sample : Nat) :
    ∀ (fuel run : Nat) (tp : List Member), tp.length < cap →
      (∀ s ∈ (tournFill ind cap sample run fuel tp).2, s.length ≤ cap) ∧
      List.Chain' (fun a b => ∃ x, b = a ++ [x])
        (tp :: (tournFill ind cap sample run fuel tp).2) := by
  intro fuel
  induction fuel with
  | zero =>
    intro run tp _
    constructor
    · intro s hs
      simp [tournFill] at hs
    · simp [tournFill]
  | succ fuel ih =>
    intro run tp hlt
    obtain ⟨ha, hb, hc, hd⟩ := innerSample_invariant (ind run) cap sample 0 tp hlt
    by_cases hkb : (innerSample (ind run) cap 0 sample tp).2.1 = true
    · obtain ⟨ha2, hb2⟩ := ih (run + 1) (innerSample (ind run) cap 0 sample tp).1 (hd hkb)
      simp only [tournFill, if_pos hkb]
      constructor
      · intro s hs
        rcases List.mem_append.mp hs with hs | hs
        · exact ha s hs
        · exact ha2 s hs
      · exact chain'_cons_append _ tp _ _ _ hb hb2 hc
    · simp only [tournFill, if_neg hkb]
      exact ⟨ha, hb⟩

/-- C5 (tournament population bound): throughout the accumulation phase of
`tournament()`, the Tournament Population only ever grows by single appends
(so its size is monotonically non-decreasing and nothing is ever removed) and
its size never exceeds `tournamentPopulationSize`; the steady phase of
`tournament()` only copies out of the pool and never modifies it. -/
theorem tournament_population_bound (ind : Nat → Nat → Member) (cap sample fuel : Nat)
    (hcap : 1 ≤ cap) :
    (∀ s ∈ (tournFill ind cap sample 0 fuel []).2, s.length ≤ cap) ∧
    List.Chain' (fun a b => ∃ x, b = a ++ [x])
      ([] :: (tournFill ind cap sample 0 fuel []).2) ∧
    List.Chain' (fun a b => a.length ≤ b.length)
      ([] :: (tournFill ind cap sample 0 fuel []).2) := by
  obtain ⟨h1, h2⟩ := tournFill_invariant ind cap sample fuel 0 [] (by simpa using hcap)
  refine ⟨h1, h2, ?_⟩
  refine List.Chain'.imp ?_ h2
  rintro a b ⟨x, rfl⟩
  simp

theorem tournament_population_bound_witness :
    1 ≤ 1 ∧
    ((∀ s ∈ (tournFill (fun _ _ =>
        { start_times := [], resources := [], score := 0, genome := [] }) 1 1 0 2 []).2,
        s.length ≤ 1) ∧
     List.Chain' (fun a b => ∃ x, b = a ++ [x])
       ([] :: (tournFill (fun _ _ =>
         { start_times := [], resources := [], score := 0, genome := [] }) 1 1 0 2 []).2) ∧
     List.Chain' (fun a b => a.length ≤ b.length)
       ([] :: (tournFill (fun _ _ =>
         { start_times := [], resources := [], score := 0, genome := [] }) 1 1 0 2 []).2)) :=
  ⟨le_refl 1,
   tournament_population_bound
     (fun _ _ => { start_times := [], resources := [], score := 0, genome := [] })
     1 1 2 (le_refl 1)⟩

end GAS

namespace GAS

theorem historyRetryLoop_spec (cand : Nat → Sol) (h : List Sol) :
    ∀ (r j : Nat),
      ((∀ t, t < r → cand (j + t) ∈ h) →
        historyRetryLoop cand h j r = (cand (j + r), h)) ∧
      (∀ t, t < r → (∀ u, u < t → cand (j + u) ∈ h) → cand (j + t) ∉ h →
        historyRetryLoop cand h j r = (cand (j + t), h ++ [cand (j + t)])) := by
  intro r
  induction r with
  | zero =>
    intro j
    constructor
    · intro _
      simp [historyRetryLoop]
    · intro t ht
      omega
  | succ r ih =>
    intro j
    constructor
    · intro hall
      have hj : cand j ∈ h := by simpa using hall 0 (by omega)
      rw [historyRetryLoop, if_pos hj]
      have := (ih (j + 1)).1 (fun t ht => by
        have := hall (t + 1) (by omega)
        simpa [Nat.add_assoc, Nat.add_comm 1 t] using this)
      rw [this, show j + 1 + r = j + (r + 1) from by omega]
    · intro t ht hprev hnot
      match t with
      | 0 =>
        have hj : cand j ∉ h := by simpa using hnot
        rw [historyRetryLoop, if_neg hj]
        simp
      | t + 1 =>
        have hj : cand j ∈ h := by simpa using hprev 0 (by omega)
        rw [historyRetryLoop, if_pos hj]
        have := (ih (j + 1)).2 t (by omega)
          (fun u hu => by
            have := hprev (u + 1) (by omega)
            simpa [Nat.add_assoc, Nat.add_comm 1 u] using this)
          (by
            have heq : j + 1 + t = j + (t + 1) := by omega
            rwa [heq])
        rw [this]
        have heq : j + 1 + t = j + (t + 1) := by omega
        rw [heq]

/-- C6 (duplicate-avoidance retry semantics): with `historyKeep = true` and
`historyRetryCount = k`, the retry construct checks up to `k` candidates
against the History Ledger (candidate `i + 1` regenerated by a fresh parent
selection, crossover and mutation after candidate `i` collides): the first
non-colliding checked candidate is recorded in the ledger and accepted; if
every checked candidate collides, the last generated candidate — `cand k`,
produced after the k-th collision and never checked — is accepted into the
new population anyway, the ledger is unchanged, and no error is raised. -/
theorem duplicate_retry_semantics (cand : Nat → Sol) (h : List Sol) (k : Nat) :
    ((∀ i, i < k → cand i ∈ h) → historyRetry cand h k = (cand k, h)) ∧
    (∀ i, i < k → (∀ u, u < i → cand u ∈ h) → cand i ∉ h →
      historyRetry cand h k = (cand i, h ++ [cand i])) := by
  have hs := historyRetryLoop_spec cand h k 0
  simp only [Nat.zero_add] at hs
  exact hs

theorem duplicate_retry_semantics_witness :
    (∀ i, i < 2 → (fun n => (([] : List Int), [n])) i ∈
        [(([] : List Int), [0]), (([] : List Int), [1])]) ∧
    historyRetry (fun n => (([] : List Int), [n]))
        [(([] : List Int), [0]), (([] : List Int), [1])] 2 =
      ((([] : List Int), [2]), [(([] : List Int), [0]), (([] : List Int), [1])]) :=
  ⟨by decide,
   (duplicate_retry_semantics (fun n => (([] : List Int), [n]))
      [(([] : List Int), [0]), (([] : List Int), [1])] 2).1 (by decide)⟩

theorem historyRetryLoop_nodup (cand : Nat → Sol) (h : List Sol) (hnd : h.Nodup) :
    ∀ (r j : Nat), (historyRetryLoop cand h j r).2.Nodup := by
  intro r
  induction r with
  | zero => intro j; simpa [historyRetryLoop] using hnd
  | succ r ih =>
    intro j
    rw [historyRetryLoop]
    by_cases hj : cand j ∈ h
    · rw [if_pos hj]; exact ih (j + 1)
    · rw [if_neg hj]
      refine List.nodup_append.mpr ⟨hnd, List.nodup_singleton _, ?_⟩
      intro x hx hx'
      rw [List.mem_singleton] at hx'
      subst hx'
      exact hj hx

/-- C10 (History Ledger uniqueness): after any sequence of history-guarded
insertion events (each individual drawn in `addRandomToPopulation` and each
offspring bred in `breedPopulation` with `historyKeep = true` performs
exactly one), the History Ledger contains no two equal
`(start_times, resources)` entries: an entry is appended only immediately
after a membership test finds it absent, and a duplicate accepted on retry
exhaustion is not appended. -/
theorem history_ledger_nodup (events : List HistEvent) : (runHistory events).Nodup := by
  suffices hgen : ∀ (evs : List HistEvent) (acc : List Sol), acc.Nodup →
      (evs.foldl (fun h e => (historyRetry e.cand h e.k).2) acc).Nodup by
    exact hgen events [] List.nodup_nil
  intro evs
  induction evs with
  | nil => intro acc hacc; exact hacc
  | cons e evs ih =>
    intro acc hacc
    exact ih _ (historyRetryLoop_nodup e.cand acc hacc e.k 0)

end GAS

namespace GAS

/-- C9 counterexample: with `averageScoreSampleSize = 1` and
`populationSize = 1`, after exactly one generation the window is already full
(it holds 1 entry) but the exposed rolling average is still `None` — not the
arithmetic mean of the most recent 1 per-generation mean scores; the average
is only published one generation later, when the window first overflows. -/
theorem rolling_average_counterexample :
    (avgRun 1 1 [[-5]]).1.length = 1 ∧
    (avgRun 1 1 [[-5]]).2 = none ∧
    (avgRun 1 1 [[-5]]).2 ≠
      some (((avgRun 1 1 [[-5]]).1.sum : ℚ) / ((1 : Nat) : ℚ)) := by
  have h2 : (avgRun 1 1 [[-5]]).2 = none := by decide
  refine ⟨by decide, h2, ?_⟩
  rw [h2]
  simp

theorem avgRun_invariant (s popSize : Nat) (hs : 0 < s) :
    ∀ (gens : List (List Int)) (prevMs : List Int) (st : List Int × Option ℚ),
      st.1 = prevMs.drop (prevMs.length - s) →
      st.2 = (if prevMs.length ≤ s then (none : Option ℚ)
              else some ((st.1.sum : ℚ) / (s : ℚ))) →
      ((gens.foldl (fun st g => avgUpdate s popSize g st.1 st.2) st).1 =
        (prevMs ++ gens.map (fun g => Int.tdiv g.sum (popSize : Int))).drop
          ((prevMs ++ gens.map (fun g => Int.tdiv g.sum (popSize : Int))).length - s) ∧
       (gens.foldl (fun st g => avgUpdate s popSize g st.1 st.2) st).2 =
        (if (prevMs ++ gens.map (fun g => Int.tdiv g.sum (popSize : Int))).length ≤ s
         then none
         else some
           (((gens.foldl (fun st g => avgUpdate s popSize g st.1 st.2) st).1.sum : ℚ)
             / (s : ℚ)))) := by
  intro gens
  induction gens with
  | nil =>
    intro prevMs st h1 h2
    simp only [List.foldl_nil, List.map_nil, List.append_nil]
    exact ⟨h1, h2⟩
  | cons g gens ih =>
    intro prevMs st h1 h2
    simp only [List.foldl_cons, List.map_cons]
    have hstep :
        (avgUpdate s popSize g st.1 st.2).1 =
          (prevMs ++ [Int.tdiv g.sum (popSize : Int)]).drop
            ((prevMs ++ [Int.tdiv g.sum (popSize : Int)]).length - s) ∧
        (avgUpdate s popSize g st.1 st.2).2 =
          (if (prevMs ++ [Int.tdiv g.sum (popSize : Int)]).length ≤ s then none
           else some (((avgUpdate s popSize g st.1 st.2).1.sum : ℚ) / (s : ℚ))) := by
      rw [avgUpdate, if_pos hs]
      by_cases hL : prevMs.length < s
      · have hlen : st.1.length = prevMs.length := by
          rw [h1, List.length_drop]
          omega
        rw [if_neg (by simp only [List.length_append, List.length_singleton, hlen]; omega)]
        have hfull : prevMs.drop (prevMs.length - s) = prevMs := by
          rw [show prevMs.length - s = 0 from by omega, List.drop_zero]
        constructor
        · rw [h1, hfull, List.length_append]
          simp only [List.length_singleton]
          rw [show prevMs.length + 1 - s = 0 from by omega, List.drop_zero]
        · rw [h2, if_pos (by omega), if_pos (by simp only [List.length_append, List.length_singleton]; omega)]
      · have hlen : st.1.length = s := by
          rw [h1, List.length_drop]
          omega
        rw [if_pos (by simp only [List.length_append, List.length_singleton, hlen]; omega)]
        constructor
        · rw [h1, ← List.drop_append_of_le_length (by omega), List.drop_drop]
          rw [List.length_append]
          simp only [List.length_singleton]
          rw [show prevMs.length - s + 1 = prevMs.length + 1 - s from by omega]
        · rw [if_neg (by simp only [List.length_append, List.length_singleton]; omega)]
    obtain ⟨hs1, hs2⟩ := hstep
    have hrec := ih (prevMs ++ [Int.tdiv g.sum (popSize : Int)])
      (avgUpdate s popSize g st.1 st.2) hs1 hs2
    simpa [List.append_assoc] using hrec

/-- C9 amended: with `averageScoreSampleSize = s > 0`, each call appends
`int(sum(scores) / populationSize)` (the truncated mean) to a window that
never holds more than `s` entries; the exposed rolling average is updated
only on the calls where the window overflows — that is, from the `(s+1)`-th
generation onward, after evicting the oldest entry — and from then on equals
the arithmetic mean of the most recent `s` per-generation mean scores; on
the generation when the window first becomes full it still holds its
previous value (`None`). -/
theorem rolling_average_window_amended (s popSize : Nat) (hs : 0 < s)
    (gens : List (List Int)) :
    (avgRun s popSize gens).1 =
      (gens.map (fun g => Int.tdiv g.sum (popSize : Int))).drop (gens.length - s) ∧
    (avgRun s popSize gens).2 =
      (if gens.length ≤ s then none
       else some (((avgRun s popSize gens).1.sum : ℚ) / (s : ℚ))) := by
  have h := avgRun_invariant s popSize hs gens [] ([], none) (by simp) (by simp)
  simpa [avgRun, List.length_map] using h

theorem rolling_average_window_amended_witness :
    0 < 1 ∧
    ((avgRun 1 1 [[2], [4]]).1 =
      (([[2], [4]] : List (List Int)).map
        (fun g => Int.tdiv g.sum ((1 : Nat) : Int))).drop
          (([[2], [4]] : List (List Int)).length - 1) ∧
     (avgRun 1 1 [[2], [4]]).2 =
      (if ([[2], [4]] : List (List Int)).length ≤ 1 then none
       else some (((avgRun 1 1 [[2], [4]]).1.sum : ℚ) / ((1 : Nat) : ℚ)))) :=
  ⟨by decide, rolling_average_window_amended 1 1 (by decide) [[2], [4]]⟩

end GAS
